import Mathlib

/-!
Verification of the lingo-cat translation bot dispatch core.

This file gives a shallow embedding, in Lean 4, of the parts of the
repository that the specification talks about:

- the retry/backoff executor `translateToWithRetry` and
  `detectLanguageWithRetry` (src/src/translator/translate.ts,
  src/src/infra/metrics.ts),
- the fan-out orchestrator `translateToMultiple`
  (src/src/translator/translate.ts),
- the target-language filtering done by the Slack message handler
  (src/apps/bot/src/infra/http.ts together with `filterTargetLanguages`),
- the message splitter `splitLongMessage` (src/apps/bot/src/utils/text.ts),
- the deduplication cache and the eligibility filter
  `shouldProcessMessage` (deduplication middleware),
- the language detector `detectLanguage` of the LangChain translation
  service.

Strings are modelled as lists of characters (`Str`); JavaScript string
primitives (`trim`, `split`, `toLowerCase`, `includes`, truthiness of
strings and of optional fields) are given explicit Lean counterparts.
Asynchronous calls to the external generation service are modelled by
oracles: a function from the attempt number (or the target index) to an
`Except` value, where `Except.error` models a rejected promise and
`Except.ok` a resolved one.  Inter-attempt backoff delays are recorded,
in milliseconds, in an explicit trace instead of being slept.
-/

/-- Strings are modelled as lists of characters. -/
abbrev Str := List Char

/-- Embed a Lean string literal into the model. -/
def chars (s : String) : Str := s.data

/-- The set of characters treated as whitespace by JavaScript: the
characters matched by the regular-expression class for whitespace and
removed by the `trim` method (space, tab, line and page separators, NBSP,
BOM and the Unicode space block). -/
def isJsWhitespace (c : Char) : Bool :=
  let n := c.toNat
  n == 0x20 || n == 0x09 || n == 0x0A || n == 0x0B || n == 0x0C || n == 0x0D ||
  n == 0xA0 || n == 0x1680 || (0x2000 ≤ n && n ≤ 0x200A) || n == 0x2028 ||
  n == 0x2029 || n == 0x202F || n == 0x205F || n == 0x3000 || n == 0xFEFF

/-- JavaScript `String.prototype.trim`: drop whitespace from both ends. -/
def trim (s : Str) : Str :=
  (s.dropWhile isJsWhitespace).rdropWhile isJsWhitespace

/-- JavaScript `String.prototype.toLowerCase` (ASCII fragment). -/
def toLowerStr (s : Str) : Str := s.map Char.toLower

/-- JavaScript `String.prototype.split` with a one-character separator:
splits at every occurrence of the separator, keeping empty pieces, and
yields `[""]` on the empty string. -/
def splitOn (c : Char) : Str → List Str
  | [] => [[]]
  | x :: xs =>
    let r := splitOn c xs
    if x = c then [] :: r
    else
      match r with
      | [] => [[x]]
      | y :: ys => (x :: y) :: ys

/-- Join a list of pieces with a one-character separator; inverse of
`splitOn`. -/
def joinSep (c : Char) : List Str → Str
  | [] => []
  | [a] => a
  | a :: b :: t => a ++ c :: joinSep c (b :: t)

/-- Does `hay` start with `needle`? -/
def listStartsWith : Str → Str → Bool
  | [], _ => true
  | _ :: _, [] => false
  | a :: as, b :: bs => a == b && listStartsWith as bs

/-- JavaScript `String.prototype.includes`: substring containment. -/
def containsSub (hay needle : Str) : Bool :=
  if listStartsWith needle hay then true
  else
    match hay with
    | [] => false
    | _ :: t => containsSub t needle

/-- JavaScript truthiness of a possibly-absent string field: `undefined`
and the empty string are falsy. -/
def truthyStr : Option Str → Bool
  | none => false
  | some s => !(s == [])

/-- JavaScript `a?.b || d`: take the message if the field is present and
the message is a truthy (non-empty) string, otherwise the default. -/
def jsOr (o : Option Str) (d : Str) : Str :=
  match o with
  | none => d
  | some m => if m == [] then d else m

/-- Accumulator pass of `wordsOf`: `acc` holds the reversed pending run
of non-whitespace characters. -/
def wordsAux : Str → Str → List Str
  | [], acc => if acc == [] then [] else [acc.reverse]
  | c :: t, acc =>
    if isJsWhitespace c then
      (if acc == [] then [] else [acc.reverse]) ++ wordsAux t []
    else wordsAux t (c :: acc)

/-- The words of a string: maximal runs of non-whitespace characters, in
order. -/
def wordsOf (s : Str) : List Str := wordsAux s []

/-!
## Translation layer (src/src/translator/translate.ts)
-/

/-- The result record returned by every translation operation
(interface `TranslationResult` in src/src/translator/translate.ts).
The optional TypeScript field `error?: string` is an `Option Str`. -/
structure TranslationResult where
  targetLanguage : Str
  translatedText : Str
  success : Bool
  error : Option Str
  deriving Repr, DecidableEq

/-- A throwaway result used only as the default of out-of-range list
reads; JavaScript indexing never goes out of range in the modelled code. -/
def dummyResult : TranslationResult :=
  { targetLanguage := [], translatedText := [], success := false, error := none }

/-- `translateTo` (src/src/translator/translate.ts, lines 20-62).  The
raced generation call is an oracle: `Except.error` is a thrown error or
timeout with its message, `Except.ok` the raw response text.  The
function catches every error and always returns a `TranslationResult`;
`preserveFormatting` is the identity in the source. -/
def translateTo (response : Except Str Str) (targetLang : Str) : TranslationResult :=
  match response with
  | .ok txt =>
    { targetLanguage := targetLang, translatedText := trim txt,
      success := true, error := none }
  | .error e =>
    { targetLanguage := targetLang, translatedText := [],
      success := false, error := some e }

/-- The observable behaviour of one run of the retry loop: the returned
result, the backoff delays slept between attempts (in milliseconds, in
order), and how many attempts were made. -/
structure RetryTrace where
  result : TranslationResult
  delays : List Nat
  attempts : Nat
  deriving Repr, DecidableEq

/-- The body of the retry loop of `translateToWithRetry`
(src/src/translator/translate.ts, lines 98-137), as a recursion on the
remaining number of loop iterations (`fuel`).  `call n` is the settled
outcome of `await translateTo(...)` on attempt `n` (0-indexed):
`Except.error` models a rejected promise entering the `catch` block.
On a hit of the `catch` block the loop sleeps `2 ^ attempt * 1000`
milliseconds when further attempts remain.  When the loop exhausts its
iterations the function returns a failure result built from the last
caught error, defaulting to a fixed message. -/
def retryGo (call : Nat → Except Str TranslationResult) (retryMax : Nat)
    (targetLang : Str) :
    Nat → Nat → Option Str → List Nat → Nat → RetryTrace
  | 0, _, lastError, delays, made =>
    ⟨{ targetLanguage := targetLang, translatedText := [], success := false,
       error := some (jsOr lastError (chars "Translation failed after retries")) },
     delays, made⟩
  | fuel + 1, attempt, lastError, delays, made =>
    match call attempt with
    | .ok r =>
      if r.success then ⟨r, delays, made + 1⟩
      else if attempt == 0 then ⟨r, delays, made + 1⟩
      else retryGo call retryMax targetLang fuel (attempt + 1) lastError delays (made + 1)
    | .error e =>
      if attempt < retryMax then
        retryGo call retryMax targetLang fuel (attempt + 1) (some e)
          (delays ++ [2 ^ attempt * 1000]) (made + 1)
      else
        retryGo call retryMax targetLang fuel (attempt + 1) (some e) delays (made + 1)

/-- `translateToWithRetry` (src/src/translator/translate.ts, lines
98-137): the loop runs attempts `0 .. retryMax` inclusive, so it has
`retryMax + 1` iterations, starting with no recorded error, no delays
and no attempts made. -/
def translateToWithRetry (call : Nat → Except Str TranslationResult)
    (retryMax : Nat) (targetLang : Str) : RetryTrace :=
  retryGo call retryMax targetLang (retryMax + 1) 0 none [] 0

/-- Trace of one run of `detectLanguageWithRetry`. -/
structure DetectTrace where
  result : Str
  delays : List Nat
  attempts : Nat
  deriving Repr, DecidableEq

/-- The body of the retry loop of `detectLanguageWithRetry`
(src/src/infra/metrics.ts, lines 430-458).  `call n` is the settled
outcome of `await detectLanguage(text)` on attempt `n`; a detection that
returns the undetermined sentinel on attempt 0 is returned at once, and
only a caught rejection causes a backoff delay. -/
def detectGo (call : Nat → Except Str Str) (retryMax : Nat) :
    Nat → Nat → List Nat → Nat → DetectTrace
  | 0, _, delays, made => ⟨chars "und", delays, made⟩
  | fuel + 1, attempt, delays, made =>
    match call attempt with
    | .ok r =>
      if r ≠ chars "und" then ⟨r, delays, made + 1⟩
      else if attempt == 0 then ⟨chars "und", delays, made + 1⟩
      else detectGo call retryMax fuel (attempt + 1) delays (made + 1)
    | .error _ =>
      if attempt < retryMax then
        detectGo call retryMax fuel (attempt + 1) (delays ++ [2 ^ attempt * 1000]) (made + 1)
      else
        detectGo call retryMax fuel (attempt + 1) delays (made + 1)

/-- `detectLanguageWithRetry` (src/src/infra/metrics.ts, lines 430-458). -/
def detectLanguageWithRetry (call : Nat → Except Str Str) (retryMax : Nat) :
    DetectTrace :=
  detectGo call retryMax (retryMax + 1) 0 [] 0

/-- The conversion done on each element of the `Promise.allSettled`
result inside `translateToMultiple` (src/src/translator/translate.ts,
lines 80-92): a fulfilled promise contributes its value, a rejected one
a failed result for the target at the same index, whose message is
`result.reason?.message || "Unknown error"`. -/
def settledToResult (targetLang : Str) :
    Except (Option Str) TranslationResult → TranslationResult
  | .ok v => v
  | .error reason =>
    { targetLanguage := targetLang, translatedText := [], success := false,
      error := some (jsOr reason (chars "Unknown error")) }

/-- `translateToMultiple` (src/src/translator/translate.ts, lines
67-93): one promise is created per target language, in list order, and
`Promise.allSettled` yields their settled outcomes in that same order
whatever the completion order; `settle i` is the settled outcome of the
promise created for `targetLangs[i]` (in the source that promise is
`translateToWithRetry(text, targetLangs[i], sourceLang)`). -/
def translateToMultiple
    (settle : Nat → Except (Option Str) TranslationResult)
    (targetLangs : List Str) : List TranslationResult :=
  (List.range targetLangs.length).map fun i =>
    settledToResult (targetLangs.getD i []) (settle i)

/-- `filterTargetLanguages` (src/src/translator/translate.ts, lines
142-144). -/
def filterTargetLanguages (targetLangs : List Str) (sourceLang : Str) : List Str :=
  targetLangs.filter (fun lang => lang != sourceLang)

/-- The target-language selection of the Slack message handler
(src/apps/bot/src/infra/http.ts, lines 336-344): two hard-coded branches
for Korean and Japanese sources, otherwise the generic self-filter over
the configured target list. -/
def computeTargetLangs (sourceLang : Str) (configuredTargets : List Str) : List Str :=
  if sourceLang == chars "ko" then [chars "en", chars "ja"]
  else if sourceLang == chars "ja" then [chars "ko", chars "en"]
  else filterTargetLanguages configuredTargets sourceLang

/-!
## Message splitter (src/apps/bot/src/utils/text.ts, lines 49-91)

The splitter folds over the lines of the text keeping the list of
finished chunks and the chunk under construction; `""` is falsy in the
source, so the flushes are guarded by non-emptiness.
-/

/-- Flush the chunk under construction, if non-empty, onto the finished
chunks (the `if (currentChunk) chunks.push(currentChunk.trim())`
pattern of the source). -/
def flushChunk (chunks : List Str) (cur : Str) : List Str :=
  if cur == [] then chunks else chunks ++ [trim cur]

/-- One step of the inner word loop of `splitLongMessage` (lines 69-77):
if the word does not fit, flush; then append the word to the (possibly
just emptied) chunk with a space separator when the chunk is non-empty. -/
def processWord (maxLength : Nat) (st : List Str × Str) (word : Str) :
    List Str × Str :=
  let (chunks, cur) := st
  if cur.length + word.length + 1 > maxLength then
    (flushChunk chunks cur, word)
  else
    (chunks, if cur == [] then word else cur ++ ' ' :: word)

/-- One step of the outer line loop of `splitLongMessage` (lines 59-84):
a line that fits is appended to the chunk with a newline separator; a
line that does not fit flushes the chunk and either becomes the new
chunk (when it is itself within the limit) or is split into words. -/
def processLine (maxLength : Nat) (st : List Str × Str) (line : Str) :
    List Str × Str :=
  let (chunks, cur) := st
  if cur.length + line.length + 1 > maxLength then
    let chunks1 := flushChunk chunks cur
    if line.length > maxLength then
      (splitOn ' ' line).foldl (processWord maxLength) (chunks1, [])
    else
      (chunks1, line)
  else
    (chunks, if cur == [] then line else cur ++ '\n' :: line)

/-- `splitLongMessage` (src/apps/bot/src/utils/text.ts, lines 49-91). -/
def splitLongMessage (text : Str) (maxLength : Nat) : List Str :=
  if text.length ≤ maxLength then [text]
  else
    let st := (splitOn '\n' text).foldl (processLine maxLength) ([], [])
    flushChunk st.1 st.2

/-- The round-trip relation of the formatter: `InterleavesWs parts s`
says that `s` is exactly the parts, in order, each framed by
whitespace-only segments: `s = w0 ++ p1 ++ w1 ++ ... ++ pk ++ wk` with
every `wi` made of whitespace characters.  Equivalently, rejoining the
parts with their original separators reproduces `s`: the parts occur
verbatim and in order inside `s`, and the difference between `s` and the
concatenated parts is confined to the whitespace at part boundaries. -/
inductive InterleavesWs : List Str → Str → Prop
  | nil (w : Str) (hw : ∀ x ∈ w, isJsWhitespace x = true) :
      InterleavesWs [] w
  | cons (w p : Str) (parts : List Str) (rest : Str)
      (hw : ∀ x ∈ w, isJsWhitespace x = true)
      (h : InterleavesWs parts rest) :
      InterleavesWs (p :: parts) (w ++ p ++ rest)

/-- The text a splitter loop consumes while processing the listed
pieces: each piece preceded by its one-character separator, the first
one by `sep` (empty at the start of the text). -/
def sepAfter (sep : Str) (c : Char) : List Str → Str
  | [] => []
  | w :: rest => sep ++ w ++ sepAfter [c] c rest

/-!
## Deduplication cache (deduplication middleware, src/unnamed/part_001)

The JavaScript `Map` is modelled as an association list with the insert
and lookup behaviour of `Map.set` and `Map.get`; `Date.now()` is an
explicit `now : Nat` argument (milliseconds), and the methods that
mutate the cache return the new cache state.
-/

/-- `CacheEntry` (src/unnamed/part_001, lines 5-8). -/
structure CacheEntry where
  timestamp : Nat
  processed : Bool
  deriving Repr, DecidableEq, Inhabited

/-- The `Map<string, CacheEntry>` of `DeduplicationCache`. -/
abbrev Cache := List (Str × CacheEntry)

/-- The fixed time-to-live of 10 minutes, in milliseconds. -/
def TTL_MS : Nat := 10 * 60 * 1000

/-- `generateKey` (src/unnamed/part_001, lines 17-19). -/
def generateKey (channelId messageTs : Str) : Str :=
  channelId ++ ':' :: messageTs

/-- `Map.get`: the entry of the first binding with the given key. -/
def mapGet (m : Cache) (k : Str) : Option CacheEntry :=
  (m.find? (fun kv => kv.1 == k)).map (fun kv => kv.2)

/-- `Map.set`: overwrite the binding in place when the key is present,
append it otherwise. -/
def mapSet (m : Cache) (k : Str) (v : CacheEntry) : Cache :=
  if m.any (fun kv => kv.1 == k) then
    m.map (fun kv => if kv.1 == k then (k, v) else kv)
  else m ++ [(k, v)]

/-- `cleanExpired` (src/unnamed/part_001, lines 24-31): delete every
entry with `now - entry.timestamp > TTL_MS`. -/
def cleanExpired (now : Nat) (m : Cache) : Cache :=
  m.filter (fun kv => decide (now - kv.2.timestamp ≤ TTL_MS))

/-- `isProcessed` (src/unnamed/part_001, lines 36-43): evict expired
entries, then answer from the surviving entry, defaulting to `false`;
the evicted cache is returned as the new state. -/
def isProcessed (channelId messageTs : Str) (now : Nat) (m : Cache) :
    Bool × Cache :=
  (match mapGet (cleanExpired now m) (generateKey channelId messageTs) with
   | some e => e.processed
   | none => false,
   cleanExpired now m)

/-- `markProcessed` (src/unnamed/part_001, lines 48-54). -/
def markProcessed (channelId messageTs : Str) (now : Nat) (m : Cache) : Cache :=
  mapSet m (generateKey channelId messageTs) ⟨now, true⟩

/-!
## Eligibility filter (src/unnamed/part_001, lines 89-192)
-/

/-- The fields of a Slack message event read by the filter; every
optional field models a property that may be `undefined`. -/
structure SlackMessage where
  channel : Str
  ts : Str
  bot_id : Option Str
  app_id : Option Str
  subtype : Option Str
  username : Option Str
  text : Option Str

/-- Membership in the pictograph ranges of the emoji-only pattern
(src/unnamed/part_001, line 156). -/
def inEmojiRanges (c : Char) : Bool :=
  let n := c.toNat
  (0x1F600 ≤ n && n ≤ 0x1F64F) || (0x1F300 ≤ n && n ≤ 0x1F5FF) ||
  (0x1F680 ≤ n && n ≤ 0x1F6FF) || (0x1F1E0 ≤ n && n ≤ 0x1F1FF) ||
  (0x2600 ≤ n && n ≤ 0x26FF) || (0x2700 ≤ n && n ≤ 0x27BF)

/-- The emoji-only test: the whole text consists of whitespace and
pictographic symbols (the anchored character-class pattern matches the
empty string as well). -/
def isEmojiOnly (s : Str) : Bool :=
  s.all (fun c => isJsWhitespace c || inEmojiRanges c)

/-- `shouldIgnoreForBotLoop` (src/unnamed/part_001, lines 89-111): the
four automated-sender checks, in source order. -/
def shouldIgnoreForBotLoop (m : SlackMessage) : Bool :=
  (truthyStr m.bot_id || m.subtype == some (chars "bot_message"))
  || truthyStr m.app_id
  || (truthyStr m.subtype && !(m.subtype == some (chars "message_changed")))
  || (truthyStr m.username && containsSub (toLowerStr (m.username.getD [])) (chars "bot"))

/-- The empty-or-whitespace-only check (line 146):
`!message.text || message.text.trim().length === 0`. -/
def emptyTextCond (m : SlackMessage) : Bool :=
  !truthyStr m.text || (trim (m.text.getD [])).length == 0

/-- The emoji-only check (lines 156-157). -/
def emojiOnlyCond (m : SlackMessage) : Bool :=
  isEmojiOnly (m.text.getD [])

/-- The opt-out marker check (lines 167-168): case-insensitive substring
match of either ignore command. -/
def ignoreCommandCond (m : SlackMessage) : Bool :=
  containsSub (toLowerStr (m.text.getD [])) (chars "/ignore")
  || containsSub (toLowerStr (m.text.getD [])) (chars "!ignore")

/-- The minimum-length check (line 178). -/
def tooShortCond (m : SlackMessage) : Bool :=
  decide ((trim (m.text.getD [])).length < 3)

/-- The record returned by `shouldProcessMessage`. -/
structure ProcessDecision where
  shouldProcess : Bool
  reason : Option Str
  channelId : Str
  messageTs : Str
  deriving Repr, DecidableEq

/-- `shouldProcessMessage` (src/unnamed/part_001, lines 116-192): the
rejection chain in source order; the deduplication lookup happens only
after the bot-loop check and its evicted cache is threaded out as the
new cache state. -/
def shouldProcessMessage (m : SlackMessage) (now : Nat) (cache : Cache) :
    ProcessDecision × Cache :=
  if shouldIgnoreForBotLoop m then
    (⟨false, some (chars "Bot message or system message"), m.channel, m.ts⟩, cache)
  else if (isProcessed m.channel m.ts now cache).1 then
    (⟨false, some (chars "Already processed"), m.channel, m.ts⟩,
     (isProcessed m.channel m.ts now cache).2)
  else if emptyTextCond m then
    (⟨false, some (chars "Empty or whitespace-only message"), m.channel, m.ts⟩,
     (isProcessed m.channel m.ts now cache).2)
  else if emojiOnlyCond m then
    (⟨false, some (chars "Emoji-only message"), m.channel, m.ts⟩,
     (isProcessed m.channel m.ts now cache).2)
  else if ignoreCommandCond m then
    (⟨false, some (chars "Ignore command detected"), m.channel, m.ts⟩,
     (isProcessed m.channel m.ts now cache).2)
  else if tooShortCond m then
    (⟨false, some (chars "Message too short for translation"), m.channel, m.ts⟩,
     (isProcessed m.channel m.ts now cache).2)
  else
    (⟨true, none, m.channel, m.ts⟩, (isProcessed m.channel m.ts now cache).2)

/-- The first-match-wins reading of a rejection table: the reason paired
with the earliest condition that holds. -/
def firstMatchReason (conds : List (Bool × Str)) : Option Str :=
  (conds.find? (fun c => c.1)).map (fun c => c.2)

/-!
## Language detection (src/unnamed/part_000, lines 23-51)
-/

/-- `validLangCodes` (src/unnamed/part_000, lines 35-38). -/
def validLangCodes : List Str :=
  [chars "en", chars "ko", chars "ja", chars "zh", chars "es", chars "fr",
   chars "de", chars "it", chars "pt", chars "ru", chars "ar", chars "hi",
   chars "th", chars "vi", chars "id", chars "ms", chars "tl", chars "und"]

/-- The normalisation of the raw model reply (line 32):
`result.content?.toString().trim().toLowerCase() || "und"`; an absent
content or an empty normalised string falls back to the sentinel. -/
def normalizeContent : Option Str → Str
  | none => chars "und"
  | some s =>
    let t := toLowerStr (trim s)
    if t == [] then chars "und" else t

/-- `LangChainTranslationService.detectLanguage` (src/unnamed/part_000,
lines 23-51).  The model invocation is an oracle whose `Except.error` is
any thrown error (network failure, timeout) and whose `Except.ok`
carries the possibly-absent reply content.  Every error is caught; a
reply outside the valid code list is replaced by the sentinel.  The
sibling `detectLanguage` of src/src/infra/metrics.ts (lines 387-425)
differs only in reading the response text directly, with the same
validation and the same catch-all. -/
def detectLanguage (response : Except Str (Option Str)) : Str :=
  match response with
  | .error _ => chars "und"
  | .ok content =>
    let detectedLang := normalizeContent content
    if validLangCodes.contains detectedLang then detectedLang
    else chars "und"

/-!
## Retry executor: step lemmas
-/

/-- A thrown attempt below the retry cap sleeps `2 ^ attempt * 1000`
milliseconds and moves on to the next attempt. -/
theorem retryGo_error_step (call : Nat → Except Str TranslationResult)
    (retryMax : Nat) (targetLang : Str) (fuel attempt : Nat)
    (lastError : Option Str) (delays : List Nat) (made : Nat) (e : Str)
    (he : call attempt = .error e) (hlt : attempt < retryMax) :
    retryGo call retryMax targetLang (fuel + 1) attempt lastError delays made =
      retryGo call retryMax targetLang fuel (attempt + 1) (some e)
        (delays ++ [2 ^ attempt * 1000]) (made + 1) := by
  rw [retryGo, he]
  simp [hlt]

/-- A successful attempt returns its result at once. -/
theorem retryGo_ok_success (call : Nat → Except Str TranslationResult)
    (retryMax : Nat) (targetLang : Str) (fuel attempt : Nat)
    (lastError : Option Str) (delays : List Nat) (made : Nat)
    (r : TranslationResult) (he : call attempt = .ok r)
    (hs : r.success = true) :
    retryGo call retryMax targetLang (fuel + 1) attempt lastError delays made =
      ⟨r, delays, made + 1⟩ := by
  rw [retryGo, he]
  simp [hs]

/-- CLAIM C1.  If the underlying translation call rejects on attempts 1
and 2 (indices 0 and 1) and resolves successfully on attempt 3 (index
2), and the configured retry maximum allows at least 3 attempts
(`retryMax ≥ 2`, the loop running `retryMax + 1` attempts), then
`translateToWithRetry` returns that successful result after exactly two
inter-attempt backoff delays of 1000 ms and 2000 ms (1 s then 2 s, the
delay slept after failed attempt `n` being `2 ^ n` seconds), with no
delay before the first attempt, and makes exactly 3 attempts. -/
theorem c1_retry_backoff_two_throws_then_success
    (call : Nat → Except Str TranslationResult) (retryMax : Nat)
    (targetLang : Str) (e0 e1 : Str) (r : TranslationResult)
    (hmax : 2 ≤ retryMax)
    (h0 : call 0 = .error e0) (h1 : call 1 = .error e1)
    (h2 : call 2 = .ok r) (hs : r.success = true) :
    translateToWithRetry call retryMax targetLang = ⟨r, [1000, 2000], 3⟩ := by
  obtain ⟨k, rfl⟩ : ∃ k, retryMax = k + 2 := ⟨retryMax - 2, by omega⟩
  have step0 := retryGo_error_step call (k + 2) targetLang (k + 2) 0 none [] 0 e0 h0 (by omega)
  have step1 := retryGo_error_step call (k + 2) targetLang (k + 1) 1 (some e0)
    [2 ^ 0 * 1000] 1 e1 h1 (by omega)
  have step2 := retryGo_ok_success call (k + 2) targetLang k 2 (some e1)
    ([2 ^ 0 * 1000] ++ [2 ^ 1 * 1000]) 2 r h2 hs
  unfold translateToWithRetry
  rw [step0]
  norm_num at step1 step2 ⊢
  rw [step1, step2]

/-- Witness for C1 at a concrete oracle: two rejections, then a
successful result, with `retryMax = 3`. -/
theorem c1_witness :
    translateToWithRetry
      (fun n => if n = 0 then .error (chars "timeout")
                else if n = 1 then .error (chars "reset")
                else .ok { targetLanguage := chars "ko",
                           translatedText := chars "hi",
                           success := true, error := none })
      3 (chars "ko")
      = ⟨{ targetLanguage := chars "ko", translatedText := chars "hi",
           success := true, error := none }, [1000, 2000], 3⟩ :=
  c1_retry_backoff_two_throws_then_success _ 3 (chars "ko")
    (chars "timeout") (chars "reset") _ (by omega) rfl rfl rfl rfl

/-- CLAIM C2.  A soft failure on the first attempt is returned at once:
if the wrapped operation resolves on attempt 0 to a non-exceptional
failure — a translation result with `success = false`, or language
detection resolving to the undetermined sentinel — the retry executor
returns that failure having made exactly one attempt and slept no
backoff delay, for any configured retry maximum; only rejections enter
the `catch` block that performs the delayed retries. -/
theorem c2_soft_failure_no_retry :
    (∀ (call : Nat → Except Str TranslationResult) (retryMax : Nat)
       (targetLang : Str) (r : TranslationResult),
       call 0 = .ok r → r.success = false →
       translateToWithRetry call retryMax targetLang = ⟨r, [], 1⟩)
    ∧ (∀ (call : Nat → Except Str Str) (retryMax : Nat),
       call 0 = .ok (chars "und") →
       detectLanguageWithRetry call retryMax = ⟨chars "und", [], 1⟩) := by
  constructor
  · intro call retryMax targetLang r h0 hs
    unfold translateToWithRetry
    rw [retryGo, h0]
    simp [hs]
  · intro call retryMax h0
    unfold detectLanguageWithRetry
    rw [detectGo, h0]
    simp

/-- Witness for C2: a soft translation failure and an undetermined
detection, both resolved on attempt 0. -/
theorem c2_witness :
    translateToWithRetry
      (fun _ => .ok { targetLanguage := chars "ja", translatedText := [],
                      success := false, error := some (chars "empty") })
      5 (chars "ja")
      = ⟨{ targetLanguage := chars "ja", translatedText := [],
           success := false, error := some (chars "empty") }, [], 1⟩
    ∧ detectLanguageWithRetry (fun _ => .ok (chars "und")) 5
      = ⟨chars "und", [], 1⟩ :=
  ⟨c2_soft_failure_no_retry.1 _ 5 (chars "ja") _ rfl rfl,
   c2_soft_failure_no_retry.2 _ 5 rfl⟩

/-!
## Fan-out orchestrator
-/

/-- Reading off the batch entry at index `i`. -/
theorem translateToMultiple_getD
    (settle : Nat → Except (Option Str) TranslationResult)
    (targetLangs : List Str) (i : Nat) (hi : i < targetLangs.length) :
    (translateToMultiple settle targetLangs).getD i dummyResult =
      settledToResult (targetLangs.getD i []) (settle i) := by
  unfold translateToMultiple
  rw [List.getD_eq_getElem?_getD, List.getElem?_map, List.getElem?_range hi]
  rfl

/-- CLAIM C3.  For every per-target settled outcome — including rejected
promises — `translateToMultiple` returns exactly one result per target
language, in the order of the input target list: the batch has the same
length as the target list, the entry at index `i` is the fulfilled value
of target `i` when its promise fulfilled, and when the promise for
target `i` rejected the batch still contains, at index `i`, a result for
that same target with `success = false` and the rejection message (so a
single failed target never aborts the batch). -/
theorem c3_fanout_order_and_partial_failure
    (settle : Nat → Except (Option Str) TranslationResult)
    (targetLangs : List Str) :
    (translateToMultiple settle targetLangs).length = targetLangs.length
    ∧ (∀ i, i < targetLangs.length → ∀ v, settle i = .ok v →
        (translateToMultiple settle targetLangs).getD i dummyResult = v)
    ∧ (∀ i, i < targetLangs.length → ∀ reason, settle i = .error reason →
        ((translateToMultiple settle targetLangs).getD i dummyResult).success = false
        ∧ ((translateToMultiple settle targetLangs).getD i dummyResult).targetLanguage
            = targetLangs.getD i []
        ∧ ((translateToMultiple settle targetLangs).getD i dummyResult).error
            = some (jsOr reason (chars "Unknown error"))) := by
  refine ⟨by simp [translateToMultiple], ?_, ?_⟩
  · intro i hi v hv
    rw [translateToMultiple_getD settle targetLangs i hi, hv]
    rfl
  · intro i hi reason hr
    rw [translateToMultiple_getD settle targetLangs i hi, hr]
    exact ⟨rfl, rfl, rfl⟩

/-- Witness for C3: three targets, the middle one rejecting. -/
theorem c3_witness :
    (translateToMultiple
      (fun i => if i = 1 then .error (some (chars "boom"))
                else .ok { targetLanguage := chars "en",
                           translatedText := chars "ok",
                           success := true, error := none })
      [chars "en", chars "ko", chars "ja"]).length = 3
    ∧ ((translateToMultiple
      (fun i => if i = 1 then .error (some (chars "boom"))
                else .ok { targetLanguage := chars "en",
                           translatedText := chars "ok",
                           success := true, error := none })
      [chars "en", chars "ko", chars "ja"]).getD 1 dummyResult).success = false := by
  refine ⟨(c3_fanout_order_and_partial_failure _ _).1, ?_⟩
  exact ((c3_fanout_order_and_partial_failure _ _).2.2 1 (by norm_num)
    (some (chars "boom")) rfl).1

/-!
## Target-language self-filtering
-/

/-- A list filtered on disequality with `s` never contains `s`. -/
theorem contains_filter_ne (l : List Str) (s : Str) :
    (l.filter (fun x => x != s)).contains s = false := by
  induction l with
  | nil => rfl
  | cons a t ih =>
    by_cases h : a = s
    · simp [List.filter_cons, h, ih]
    · simp [List.filter_cons, h, List.contains_cons, Ne.symm h, ih]

/-- CLAIM C4.  The list of target languages the message handler
dispatches to fan-out never contains the detected source language: each
hard-coded branch omits its source and the generic branch filters it
out. -/
theorem c4_targets_never_contain_source (sourceLang : Str)
    (configuredTargets : List Str) :
    (computeTargetLangs sourceLang configuredTargets).contains sourceLang = false := by
  unfold computeTargetLangs
  by_cases hko : sourceLang == chars "ko"
  · rw [if_pos hko]
    have hko2 : sourceLang = chars "ko" := eq_of_beq hko
    subst hko2
    decide
  · rw [if_neg hko]
    by_cases hja : sourceLang == chars "ja"
    · rw [if_pos hja]
      have hja2 : sourceLang = chars "ja" := eq_of_beq hja
      subst hja2
      decide
    · rw [if_neg hja]
      exact contains_filter_ne configuredTargets sourceLang

/-!
## Totality and failure shape of the translation operations
-/

/-- Shape invariant of the retry loop: whatever the oracle does, the
returned result carries the requested target language, and a failed
result has an empty translation and a present error field, provided
every resolved oracle value does (which `translateTo` guarantees). -/
theorem retryGo_result_shape (call : Nat → Except Str TranslationResult)
    (retryMax : Nat) (targetLang : Str)
    (hcall : ∀ n r, call n = .ok r → r.targetLanguage = targetLang ∧
      (r.success = false → r.translatedText = [] ∧ r.error.isSome = true)) :
    ∀ fuel attempt lastError delays made,
      (retryGo call retryMax targetLang fuel attempt lastError delays made).result.targetLanguage
          = targetLang
      ∧ ((retryGo call retryMax targetLang fuel attempt lastError delays made).result.success = false →
          (retryGo call retryMax targetLang fuel attempt lastError delays made).result.translatedText = []
          ∧ (retryGo call retryMax targetLang fuel attempt lastError delays made).result.error.isSome = true) := by
  intro fuel
  induction fuel with
  | zero =>
    intro attempt lastError delays made
    exact ⟨rfl, fun _ => ⟨rfl, rfl⟩⟩
  | succ n ih =>
    intro attempt lastError delays made
    rw [retryGo]
    cases hc : call attempt with
    | ok r =>
      by_cases hs : r.success
      · simpa [hs] using hcall attempt r hc
      · by_cases ha : attempt == 0
        · simp only [Bool.not_eq_true] at hs
          simpa [hs, ha] using hcall attempt r hc
        · simp only [Bool.not_eq_true] at hs
          simpa [hs, ha] using ih (attempt + 1) lastError delays (made + 1)
    | error e =>
      by_cases hlt : attempt < retryMax
      · simpa [hlt] using ih (attempt + 1) (some e) (delays ++ [2 ^ attempt * 1000]) (made + 1)
      · simpa [hlt] using ih (attempt + 1) (some e) delays (made + 1)

/-- CLAIM C10.  `translateTo` and `translateToWithRetry` are total at
the promise level: in the model both are total functions into
`TranslationResult` (every branch of the source, including the
catch-all, returns a value, so the promise always resolves).  Moreover
every result carries exactly the target language the call was made
with, and every failed result (`success = false`) has an empty
`translatedText` and a present (`some`) `error` field. -/
theorem c10_totality_and_failure_shape :
    (∀ (response : Except Str Str) (targetLang : Str),
      (translateTo response targetLang).targetLanguage = targetLang
      ∧ ((translateTo response targetLang).success = false →
          (translateTo response targetLang).translatedText = []
          ∧ (translateTo response targetLang).error.isSome = true))
    ∧ (∀ (call : Nat → Except Str TranslationResult) (retryMax : Nat) (targetLang : Str),
      (∀ n r, call n = .ok r → r.targetLanguage = targetLang ∧
        (r.success = false → r.translatedText = [] ∧ r.error.isSome = true)) →
      (translateToWithRetry call retryMax targetLang).result.targetLanguage = targetLang
      ∧ ((translateToWithRetry call retryMax targetLang).result.success = false →
          (translateToWithRetry call retryMax targetLang).result.translatedText = []
          ∧ (translateToWithRetry call retryMax targetLang).result.error.isSome = true)) := by
  constructor
  · intro response targetLang
    cases response with
    | ok txt => exact ⟨rfl, by intro h; simp [translateTo] at h⟩
    | error e => exact ⟨rfl, fun _ => ⟨rfl, rfl⟩⟩
  · intro call retryMax targetLang hcall
    exact retryGo_result_shape call retryMax targetLang hcall (retryMax + 1) 0 none [] 0

/-- Witness for C10: a concrete throwing call and a concrete exhausted
retry, whose failure results have the claimed shape. -/
theorem c10_witness :
    (translateTo (.error (chars "boom")) (chars "fr")).targetLanguage = chars "fr"
    ∧ (translateToWithRetry (fun _ => translateTo (.error (chars "boom")) (chars "fr") |> .ok)
        2 (chars "fr")).result.targetLanguage = chars "fr" := by
  constructor
  · exact (c10_totality_and_failure_shape.1 (.error (chars "boom")) (chars "fr")).1
  · exact (c10_totality_and_failure_shape.2
      (fun _ => translateTo (.error (chars "boom")) (chars "fr") |> .ok) 2 (chars "fr")
      (fun n r hr => by
        cases hr
        exact c10_totality_and_failure_shape.1 (.error (chars "boom")) (chars "fr"))).1

/-!
## Language detection
-/

/-- CLAIM C9.  `detectLanguage` never throws (it is total: every thrown
error of the underlying model invocation is caught) and always returns
a code from the fixed valid-code list, whose last element is the
undetermined sentinel: a rejected invocation yields the sentinel, and a
reply whose normalised content lies outside the list yields the
sentinel as well. -/
theorem c9_detect_language_closed
    (response : Except Str (Option Str)) :
    validLangCodes.contains (detectLanguage response) = true
    ∧ (∀ e, response = .error e → detectLanguage response = chars "und")
    ∧ (∀ content, response = .ok content →
        validLangCodes.contains (normalizeContent content) = false →
        detectLanguage response = chars "und") := by
  refine ⟨?_, ?_, ?_⟩
  · cases response with
    | error e =>
      show validLangCodes.contains (chars "und") = true
      decide
    | ok content =>
      by_cases h : validLangCodes.contains (normalizeContent content) = true
      · have hd : detectLanguage (.ok content) = normalizeContent content := by
          show (if validLangCodes.contains (normalizeContent content) = true
                then normalizeContent content else chars "und") = normalizeContent content
          rw [if_pos h]
        rw [hd]
        exact h
      · have hd : detectLanguage (.ok content) = chars "und" := by
          show (if validLangCodes.contains (normalizeContent content) = true
                then normalizeContent content else chars "und") = chars "und"
          rw [if_neg h]
        rw [hd]
        decide
  · intro e he
    subst he
    rfl
  · intro content hc hout
    subst hc
    show (if validLangCodes.contains (normalizeContent content) = true
          then normalizeContent content else chars "und") = chars "und"
    rw [if_neg (by rw [hout]; simp)]

/-- Witness for C9: an invalid reply and a rejected invocation both
collapse to the sentinel, which is a valid code. -/
theorem c9_witness :
    validLangCodes.contains (detectLanguage (.ok (some (chars "Elvish")))) = true
    ∧ detectLanguage (.error (chars "timeout")) = chars "und"
    ∧ detectLanguage (.ok (some (chars "Elvish"))) = chars "und" := by
  refine ⟨(c9_detect_language_closed _).1, ?_, ?_⟩
  · exact (c9_detect_language_closed _).2.1 (chars "timeout") rfl
  · exact (c9_detect_language_closed _).2.2 (some (chars "Elvish")) rfl (by decide)

/-!
## Deduplication cache: TTL behaviour
-/

/-- Searching the rewritten map for the written key under an extra
condition `q` sees only the written binding. -/
theorem find?_map_overwrite (m : Cache) (k : Str) (v : CacheEntry)
    (q : Str × CacheEntry → Bool) :
    (m.map (fun kv => if kv.1 == k then (k, v) else kv)).find?
        (fun kv => kv.1 == k && q kv) =
      if (m.any (fun kv => kv.1 == k) && q (k, v)) = true then some (k, v) else none := by
  induction m with
  | nil => simp
  | cons a t ih =>
    by_cases hk : (a.1 == k) = true
    · by_cases hq : q (k, v) = true
      · rw [List.map_cons, if_pos hk, List.find?_cons_of_pos _ (by simp [hq])]
        simp [List.any_cons, hk, hq]
      · rw [List.map_cons, if_pos hk, List.find?_cons_of_neg _ (by simp [hq]), ih]
        simp [List.any_cons, hk, hq]
    · have hstep : List.find? (fun kv => kv.1 == k && q kv)
          (a :: t.map (fun kv => if kv.1 == k then (k, v) else kv)) =
          List.find? (fun kv => kv.1 == k && q kv)
            (t.map (fun kv => if kv.1 == k then (k, v) else kv)) :=
        List.find?_cons_of_neg _ (by simp [hk])
      have hkf : (a.1 == k) = false := by simpa using hk
      rw [List.map_cons]
      simp only [hkf, Bool.false_eq_true, if_false]
      rw [hstep, ih]
      simp only [List.any_cons, hkf, Bool.false_or]

/-- Searching an untouched map for an absent key finds nothing, under
any extra condition. -/
theorem find?_absent_key (m : Cache) (k : Str)
    (q : Str × CacheEntry → Bool)
    (hany : m.any (fun kv => kv.1 == k) = false) :
    m.find? (fun kv => kv.1 == k && q kv) = none := by
  rw [List.find?_eq_none]
  intro x hx
  have hxk : ¬ (x.1 == k) = true := by
    intro hxk
    have hx2 : m.any (fun kv => kv.1 == k) = true :=
      List.any_eq_true.mpr ⟨x, hx, hxk⟩
    rw [hx2] at hany
    cases hany
  simp only [Bool.and_eq_true, not_and]
  intro hk2
  exact absurd hk2 hxk

/-- In a `mapSet` result, searching for the written key under any extra
condition `q` finds exactly the written binding, or nothing when the
written binding fails `q`. -/
theorem find?_pred_mapSet (m : Cache) (k : Str) (v : CacheEntry)
    (q : Str × CacheEntry → Bool) :
    (mapSet m k v).find? (fun kv => kv.1 == k && q kv) =
      if q (k, v) = true then some (k, v) else none := by
  unfold mapSet
  by_cases hany : m.any (fun kv => kv.1 == k) = true
  · rw [if_pos hany, find?_map_overwrite]
    by_cases hq : q (k, v) = true
    · simp [hany, hq]
    · simp [hany, hq]
  · rw [if_neg hany, List.find?_append,
      find?_absent_key m k q (Bool.not_eq_true _ |>.mp hany)]
    by_cases hq : q (k, v) = true
    · simp [List.find?, hq]
    · simp [List.find?, hq]

/-- Searching a filtered list is searching the original list for both
conditions at once. -/
theorem find?_filter_comm (p q : Str × CacheEntry → Bool) (l : Cache) :
    (l.filter q).find? p = l.find? (fun x => p x && q x) := by
  induction l with
  | nil => rfl
  | cons a t ih =>
    by_cases hq : q a = true
    · rw [List.filter_cons_of_pos hq]
      by_cases hp : p a = true
      · rw [List.find?_cons_of_pos _ hp, List.find?_cons_of_pos _ (by simp [hp, hq])]
      · rw [List.find?_cons_of_neg _ hp, List.find?_cons_of_neg _ (by simp [hp]), ih]
    · rw [List.filter_cons_of_neg hq, List.find?_cons_of_neg _ (by simp [hq]), ih]

/-- With pairwise-distinct keys, the lookup of a key finds exactly the
member binding that carries it. -/
theorem nodup_find?_key (m : Cache) (k : Str) (kv : Str × CacheEntry)
    (hnd : (m.map Prod.fst).Nodup) (hmem : kv ∈ m) (hk : kv.1 = k) :
    m.find? (fun x => x.1 == k) = some kv := by
  induction m with
  | nil => cases hmem
  | cons a t ih =>
    rcases List.mem_cons.mp hmem with rfl | hmemt
    · exact List.find?_cons_of_pos _ (by simp [hk])
    · rw [List.map_cons, List.nodup_cons] at hnd
      have hak : ¬ (a.1 == k) = true := by
        intro hak
        refine hnd.1 ?_
        have : k ∈ t.map Prod.fst := by
          rw [← hk]
          exact List.mem_map_of_mem Prod.fst hmemt
        rw [eq_of_beq hak]
        exact this
      have hstep : List.find? (fun x => x.1 == k) (a :: t) =
          List.find? (fun x => x.1 == k) t :=
        List.find?_cons_of_neg _ hak
      rw [hstep]
      exact ih hnd.2 hmemt

/-- CLAIM C7.  Marking a key processed at time `t0` and asking at time
`t1` within the 10-minute TTL (`t1 - t0 ≤ TTL_MS`) answers `true`; once
the TTL has elapsed (`t1 - t0 > TTL_MS`) it answers `false`; and in
general — for any cache whose keys are pairwise distinct, as every cache
built by the class operations is — `isProcessed` answers `true` only on
the strength of a stored entry that is processed and not yet expired,
because `cleanExpired` evicts every expired entry before the lookup. -/
theorem c7_ttl_behaviour :
    (∀ (cache : Cache) (channelId messageTs : Str) (t0 t1 : Nat),
      t1 - t0 ≤ TTL_MS →
      (isProcessed channelId messageTs t1
        (markProcessed channelId messageTs t0 cache)).1 = true)
    ∧ (∀ (cache : Cache) (channelId messageTs : Str) (t0 t1 : Nat),
      TTL_MS < t1 - t0 →
      (isProcessed channelId messageTs t1
        (markProcessed channelId messageTs t0 cache)).1 = false)
    ∧ (∀ (cache : Cache) (channelId messageTs : Str) (now : Nat),
      (cache.map Prod.fst).Nodup →
      (isProcessed channelId messageTs now cache).1 = true →
      ∃ e, mapGet cache (generateKey channelId messageTs) = some e
        ∧ e.processed = true ∧ now - e.timestamp ≤ TTL_MS) := by
  refine ⟨?_, ?_, ?_⟩
  · intro cache channelId messageTs t0 t1 hfresh
    unfold isProcessed markProcessed cleanExpired mapGet
    rw [find?_filter_comm, find?_pred_mapSet]
    simp [hfresh]
  · intro cache channelId messageTs t0 t1 hexp
    unfold isProcessed markProcessed cleanExpired mapGet
    rw [find?_filter_comm, find?_pred_mapSet]
    have : ¬ (t1 - t0 ≤ TTL_MS) := by omega
    simp [this]
  · intro cache channelId messageTs now hnd htrue
    unfold isProcessed cleanExpired mapGet at htrue
    rw [find?_filter_comm] at htrue
    cases hfind : cache.find?
        (fun x => x.1 == generateKey channelId messageTs
          && decide (now - x.2.timestamp ≤ TTL_MS)) with
    | none =>
      rw [hfind] at htrue
      cases htrue
    | some kv =>
      rw [hfind] at htrue
      have hprop := List.find?_some hfind
      rw [Bool.and_eq_true] at hprop
      have hmem := List.mem_of_find?_eq_some hfind
      refine ⟨kv.2, ?_, ?_, ?_⟩
      · unfold mapGet
        rw [nodup_find?_key cache (generateKey channelId messageTs) kv hnd hmem
          (eq_of_beq hprop.1)]
        rfl
      · simpa using htrue
      · exact of_decide_eq_true hprop.2

/-- Witness for C7: one key marked at time 0, queried at the TTL bound
and one millisecond after it, plus a concrete fresh single-entry cache. -/
theorem c7_witness :
    (isProcessed (chars "C") (chars "1") 600000
      (markProcessed (chars "C") (chars "1") 0 [])).1 = true
    ∧ (isProcessed (chars "C") (chars "1") 600001
      (markProcessed (chars "C") (chars "1") 0 [])).1 = false
    ∧ ∃ e, mapGet [(generateKey (chars "C") (chars "1"), ⟨100, true⟩)]
        (generateKey (chars "C") (chars "1")) = some e
        ∧ e.processed = true ∧ 150 - e.timestamp ≤ TTL_MS := by
  refine ⟨?_, ?_, ?_⟩
  · exact c7_ttl_behaviour.1 [] (chars "C") (chars "1") 0 600000 (by norm_num [TTL_MS])
  · exact c7_ttl_behaviour.2.1 [] (chars "C") (chars "1") 0 600001 (by norm_num [TTL_MS])
  · exact c7_ttl_behaviour.2.2
      [(generateKey (chars "C") (chars "1"), ⟨100, true⟩)]
      (chars "C") (chars "1") 150 (by simp) (by decide)

/-!
## Eligibility filter: rejection precedence
-/

/-- CLAIM C8.  The rejection precedence of the eligibility filter is
deterministic, first match wins, in the source order: automated sender
(bot, app, non-edit subtype or bot-named user), already processed,
empty or whitespace-only text, emoji-only text, opt-out marker, too
short.  The reported reason is always the reason paired with the
earliest matching condition; in particular a message that is both from
an automated sender and empty-texted is rejected for the
automated-sender reason, not the empty-text reason. -/
theorem c8_rejection_precedence (m : SlackMessage) (now : Nat) (cache : Cache) :
    (shouldProcessMessage m now cache).1.reason
      = firstMatchReason
          [(shouldIgnoreForBotLoop m, chars "Bot message or system message"),
           ((isProcessed m.channel m.ts now cache).1, chars "Already processed"),
           (emptyTextCond m, chars "Empty or whitespace-only message"),
           (emojiOnlyCond m, chars "Emoji-only message"),
           (ignoreCommandCond m, chars "Ignore command detected"),
           (tooShortCond m, chars "Message too short for translation")]
    ∧ (shouldIgnoreForBotLoop m = true → emptyTextCond m = true →
        (shouldProcessMessage m now cache).1.reason
          = some (chars "Bot message or system message")) := by
  constructor
  · by_cases h1 : shouldIgnoreForBotLoop m = true <;>
    by_cases h2 : (isProcessed m.channel m.ts now cache).1 = true <;>
    by_cases h3 : emptyTextCond m = true <;>
    by_cases h4 : emojiOnlyCond m = true <;>
    by_cases h5 : ignoreCommandCond m = true <;>
    by_cases h6 : tooShortCond m = true <;>
    simp [shouldProcessMessage, firstMatchReason, List.find?, h1, h2, h3, h4, h5, h6]
  · intro hbot hempty
    simp [shouldProcessMessage, hbot]

/-- Witness for C8: a bot-authored message with absent text is rejected
for the automated-sender reason. -/
theorem c8_witness :
    (shouldProcessMessage
      { channel := chars "C", ts := chars "1", bot_id := some (chars "B9"),
        app_id := none, subtype := none, username := none, text := none }
      0 []).1.reason = some (chars "Bot message or system message") :=
  (c8_rejection_precedence
    { channel := chars "C", ts := chars "1", bot_id := some (chars "B9"),
      app_id := none, subtype := none, username := none, text := none }
    0 []).2 (by decide) (by decide)

/-!
## Splitter: word-preservation and length infrastructure
-/

/-- Dropping a matched run never lengthens a list. -/
theorem length_dropWhile_le (p : Char → Bool) (l : Str) :
    (l.dropWhile p).length ≤ l.length :=
  ((List.dropWhile_suffix p).sublist).length_le

/-- `wordsOf` of the empty string. -/
theorem wordsOf_nil : wordsOf [] = [] := rfl

/-- Unfolding `wordsAux` at a whitespace character: the pending run is
flushed. -/
theorem wordsAux_ws (c : Char) (t acc : Str) (h : isJsWhitespace c = true) :
    wordsAux (c :: t) acc =
      (if acc == [] then [] else [acc.reverse]) ++ wordsAux t [] := by
  simp [wordsAux, h]

/-- Unfolding `wordsAux` at a non-whitespace character: the run grows. -/
theorem wordsAux_nonws (c : Char) (t acc : Str) (h : isJsWhitespace c = false) :
    wordsAux (c :: t) acc = wordsAux t (c :: acc) := by
  simp [wordsAux, h]

/-- A leading whitespace character contributes no word. -/
theorem wordsOf_ws_cons (c : Char) (s : Str) (h : isJsWhitespace c = true) :
    wordsOf (c :: s) = wordsOf s := by
  unfold wordsOf
  rw [wordsAux_ws c s [] h]
  rfl

/-- Words distribute over an appended whitespace separator, whatever
run is pending. -/
theorem wordsAux_append_sep (c : Char) (hc : isJsWhitespace c = true) :
    ∀ (a acc b : Str),
      wordsAux (a ++ c :: b) acc = wordsAux a acc ++ wordsAux b [] := by
  intro a
  induction a with
  | nil =>
    intro acc b
    rw [List.nil_append, wordsAux_ws c b acc hc]
    rfl
  | cons x a1 ih =>
    intro acc b
    by_cases hx : isJsWhitespace x = true
    · rw [List.cons_append, wordsAux_ws x (a1 ++ c :: b) acc hx,
        wordsAux_ws x a1 acc hx, ih [] b, List.append_assoc]
    · have hxf : isJsWhitespace x = false := by
        cases hb : isJsWhitespace x with
        | false => rfl
        | true => exact absurd hb hx
      rw [List.cons_append, wordsAux_nonws x (a1 ++ c :: b) acc hxf,
        wordsAux_nonws x a1 acc hxf, ih (x :: acc) b]

/-- Words distribute over an appended whitespace separator. -/
theorem wordsOf_append_sep (c : Char) (hc : isJsWhitespace c = true)
    (a b : Str) : wordsOf (a ++ c :: b) = wordsOf a ++ wordsOf b :=
  wordsAux_append_sep c hc a [] b

/-- A fully-whitespace string contributes only the pending run. -/
theorem wordsAux_allws (w : Str) (hw : ∀ x ∈ w, isJsWhitespace x = true) :
    ∀ acc, wordsAux w acc = if acc == [] then [] else [acc.reverse] := by
  induction w with
  | nil => intro acc; rfl
  | cons x w1 ih =>
    intro acc
    rw [wordsAux_ws x w1 acc (hw x (List.mem_cons_self x w1)),
      ih (fun y hy => hw y (List.mem_cons_of_mem x hy)) []]
    simp

/-- A fully-whitespace string has no words. -/
theorem wordsOf_nil_of_allws (w : Str)
    (hw : ∀ x ∈ w, isJsWhitespace x = true) : wordsOf w = [] := by
  unfold wordsOf
  rw [wordsAux_allws w hw []]
  rfl

/-- Appending trailing whitespace does not change the words. -/
theorem wordsOf_append_allws (a w : Str)
    (hw : ∀ x ∈ w, isJsWhitespace x = true) : wordsOf (a ++ w) = wordsOf a := by
  cases w with
  | nil => rw [List.append_nil]
  | cons c w1 =>
    rw [wordsOf_append_sep c (hw c (List.mem_cons_self c w1)) a w1,
      wordsOf_nil_of_allws w1 (fun y hy => hw y (List.mem_cons_of_mem c hy)),
      List.append_nil]

/-- Dropping leading whitespace does not change the words. -/
theorem wordsOf_dropWhile_ws (s : Str) :
    wordsOf (s.dropWhile isJsWhitespace) = wordsOf s := by
  induction s with
  | nil => rfl
  | cons c t ih =>
    by_cases hc : isJsWhitespace c = true
    · rw [List.dropWhile_cons, if_pos hc, ih, wordsOf_ws_cons c t hc]
    · rw [List.dropWhile_cons, if_neg hc]

/-- A list is its whitespace-trimmed right part followed by a
whitespace suffix. -/
theorem rdropWhile_ws_decomposition (s : Str) :
    s = s.rdropWhile isJsWhitespace ++
      (s.reverse.takeWhile isJsWhitespace).reverse := by
  have h : s.reverse.takeWhile isJsWhitespace ++ s.reverse.dropWhile isJsWhitespace
      = s.reverse :=
    List.takeWhile_append_dropWhile isJsWhitespace s.reverse
  have h2 := congrArg List.reverse h
  rw [List.reverse_append, List.reverse_reverse] at h2
  rw [List.rdropWhile]
  exact h2.symm

/-- Dropping trailing whitespace does not change the words. -/
theorem wordsOf_rdropWhile_ws (s : Str) :
    wordsOf (s.rdropWhile isJsWhitespace) = wordsOf s := by
  conv_rhs => rw [rdropWhile_ws_decomposition s]
  rw [wordsOf_append_allws]
  intro x hx
  rw [List.mem_reverse] at hx
  exact List.mem_takeWhile_imp hx

/-- Trimming does not change the words. -/
theorem wordsOf_trim (s : Str) : wordsOf (trim s) = wordsOf s := by
  rw [trim, wordsOf_rdropWhile_ws, wordsOf_dropWhile_ws]

/-- A list without removable leading whitespace keeps that property
after its trailing whitespace is removed. -/
theorem dropWhile_rdropWhile_of_dropWhile_eq (s : Str)
    (h : s.dropWhile isJsWhitespace = s) :
    (s.rdropWhile isJsWhitespace).dropWhile isJsWhitespace =
      s.rdropWhile isJsWhitespace := by
  cases hr : s.rdropWhile isJsWhitespace with
  | nil => rfl
  | cons x t =>
    have hdecomp := rdropWhile_ws_decomposition s
    rw [hr] at hdecomp
    have hxf : isJsWhitespace x = false := by
      cases hb : isJsWhitespace x with
      | false => rfl
      | true =>
        exfalso
        rw [hdecomp, List.cons_append, List.dropWhile_cons, if_pos hb] at h
        have hlen := congrArg List.length h
        have hle := length_dropWhile_le isJsWhitespace
          (t ++ (s.reverse.takeWhile isJsWhitespace).reverse)
        simp only [List.length_cons] at hlen
        omega
    rw [List.dropWhile_cons, if_neg (by simp [hxf])]

/-- Trimming is idempotent. -/
theorem trim_trim (s : Str) : trim (trim s) = trim s := by
  unfold trim
  rw [dropWhile_rdropWhile_of_dropWhile_eq _ (List.dropWhile_idempotent _ _),
    List.rdropWhile_idempotent]

/-- Trimming never lengthens a string. -/
theorem trim_length_le (s : Str) : (trim s).length ≤ s.length := by
  unfold trim
  rw [List.rdropWhile]
  calc ((s.dropWhile isJsWhitespace).reverse.dropWhile isJsWhitespace).reverse.length
      = ((s.dropWhile isJsWhitespace).reverse.dropWhile isJsWhitespace).length := by
        rw [List.length_reverse]
    _ ≤ (s.dropWhile isJsWhitespace).reverse.length :=
        length_dropWhile_le _ _
    _ = (s.dropWhile isJsWhitespace).length := by rw [List.length_reverse]
    _ ≤ s.length := length_dropWhile_le _ _

/-- `splitOn` always yields at least one piece. -/
theorem splitOn_ne_nil (c : Char) (s : Str) : splitOn c s ≠ [] := by
  cases s with
  | nil => simp [splitOn]
  | cons x xs =>
    unfold splitOn
    by_cases h : x = c
    · simp [h]
    · rcases hr : splitOn c xs with _ | ⟨y, ys⟩ <;> simp [h, hr]

/-- Joining the split pieces with the separator restores the string. -/
theorem joinSep_splitOn (c : Char) : ∀ s : Str, joinSep c (splitOn c s) = s := by
  intro s
  induction s with
  | nil => rfl
  | cons x xs ih =>
    rcases hr : splitOn c xs with _ | ⟨y, ys⟩
    · exact absurd hr (splitOn_ne_nil c xs)
    · rw [hr] at ih
      by_cases h : x = c
      · subst h
        rw [splitOn]
        simp only [if_pos rfl, hr]
        show [] ++ x :: joinSep x (y :: ys) = x :: xs
        rw [List.nil_append, ih]
      · rw [splitOn]
        simp only [if_neg h, hr]
        cases ys with
        | nil =>
          have ihy : y = xs := ih
          show x :: y = x :: xs
          rw [ihy]
        | cons z zs =>
          have ih2 : y ++ c :: joinSep c (z :: zs) = xs := ih
          show (x :: y) ++ c :: joinSep c (z :: zs) = x :: xs
          rw [List.cons_append, ih2]

/-- Words of pieces joined by a whitespace separator: the concatenation
of the words of the pieces. -/
theorem wordsOf_joinSep (c : Char) (hc : isJsWhitespace c = true) :
    ∀ parts : List Str, wordsOf (joinSep c parts) = parts.flatMap wordsOf := by
  intro parts
  induction parts with
  | nil => rfl
  | cons a t ih =>
    cases t with
    | nil => simp [joinSep]
    | cons b t2 =>
      have hstep : joinSep c (a :: b :: t2) = a ++ c :: joinSep c (b :: t2) := rfl
      rw [hstep, wordsOf_append_sep c hc, ih]
      simp [List.flatMap_cons]

/-- The words of a string are recovered from its split pieces. -/
theorem flatMap_wordsOf_splitOn (c : Char) (hc : isJsWhitespace c = true)
    (s : Str) : (splitOn c s).flatMap wordsOf = wordsOf s := by
  rw [← wordsOf_joinSep c hc (splitOn c s), joinSep_splitOn]

/-- The space and newline characters are whitespace. -/
theorem isJsWhitespace_space : isJsWhitespace ' ' = true := by decide

/-- The newline character is whitespace. -/
theorem isJsWhitespace_newline : isJsWhitespace '\n' = true := by decide

/-- Flushing preserves the accumulated words. -/
theorem flushChunk_words (ch : List Str) (cur : Str) :
    (flushChunk ch cur).flatMap wordsOf = ch.flatMap wordsOf ++ wordsOf cur := by
  unfold flushChunk
  by_cases hcur : (cur == []) = true
  · have : cur = [] := eq_of_beq hcur
    subst this
    simp [wordsOf_nil]
  · rw [if_neg hcur, List.flatMap_append]
    simp [wordsOf_trim]

/-- One word step preserves the accumulated words. -/
theorem processWord_words (maxLength : Nat) (ch : List Str) (cur w : Str) :
    (processWord maxLength (ch, cur) w).1.flatMap wordsOf
      ++ wordsOf (processWord maxLength (ch, cur) w).2
    = ch.flatMap wordsOf ++ wordsOf cur ++ wordsOf w := by
  unfold processWord
  dsimp only
  by_cases hcond : cur.length + w.length + 1 > maxLength
  · rw [if_pos hcond]
    simp only [flushChunk_words]
  · rw [if_neg hcond]
    by_cases hcur : (cur == []) = true
    · have : cur = [] := eq_of_beq hcur
      subst this
      simp [wordsOf_nil]
    · rw [if_neg hcur, wordsOf_append_sep ' ' isJsWhitespace_space,
        List.append_assoc]

/-- The word loop preserves the accumulated words. -/
theorem foldl_processWord_words (maxLength : Nat) (wl : List Str) :
    ∀ (ch : List Str) (cur : Str),
      (wl.foldl (processWord maxLength) (ch, cur)).1.flatMap wordsOf
        ++ wordsOf (wl.foldl (processWord maxLength) (ch, cur)).2
      = ch.flatMap wordsOf ++ wordsOf cur ++ wl.flatMap wordsOf := by
  induction wl with
  | nil =>
    intro ch cur
    simp
  | cons w wl ih =>
    intro ch cur
    rw [List.foldl_cons]
    rcases hst : processWord maxLength (ch, cur) w with ⟨ch1, cur1⟩
    have hw := processWord_words maxLength ch cur w
    rw [hst] at hw
    simp only at hw
    rw [ih ch1 cur1, hw, List.flatMap_cons]
    simp [List.append_assoc]

/-- One line step preserves the accumulated words. -/
theorem processLine_words (maxLength : Nat) (ch : List Str) (cur l : Str) :
    (processLine maxLength (ch, cur) l).1.flatMap wordsOf
      ++ wordsOf (processLine maxLength (ch, cur) l).2
    = ch.flatMap wordsOf ++ wordsOf cur ++ wordsOf l := by
  unfold processLine
  dsimp only
  by_cases hcond : cur.length + l.length + 1 > maxLength
  · rw [if_pos hcond]
    by_cases hlong : l.length > maxLength
    · rw [if_pos hlong]
      rw [foldl_processWord_words maxLength (splitOn ' ' l) (flushChunk ch cur) [],
        flushChunk_words, flatMap_wordsOf_splitOn ' ' isJsWhitespace_space]
      simp [wordsOf_nil]
    · rw [if_neg hlong]
      simp only [flushChunk_words]
  · rw [if_neg hcond]
    by_cases hcur : (cur == []) = true
    · have : cur = [] := eq_of_beq hcur
      subst this
      simp [wordsOf_nil]
    · rw [if_neg hcur, wordsOf_append_sep '\n' isJsWhitespace_newline,
        List.append_assoc]

/-- The line loop preserves the accumulated words. -/
theorem foldl_processLine_words (maxLength : Nat) (lines : List Str) :
    ∀ (ch : List Str) (cur : Str),
      (lines.foldl (processLine maxLength) (ch, cur)).1.flatMap wordsOf
        ++ wordsOf (lines.foldl (processLine maxLength) (ch, cur)).2
      = ch.flatMap wordsOf ++ wordsOf cur ++ lines.flatMap wordsOf := by
  induction lines with
  | nil =>
    intro ch cur
    simp
  | cons l lines ih =>
    intro ch cur
    rw [List.foldl_cons]
    rcases hst : processLine maxLength (ch, cur) l with ⟨ch1, cur1⟩
    have hl := processLine_words maxLength ch cur l
    rw [hst] at hl
    simp only at hl
    rw [ih ch1 cur1, hl, List.flatMap_cons]
    simp [List.append_assoc]

/-- A fold preserves any invariant its steps preserve. -/
theorem foldl_invariant {α σ : Type} (P : σ → Prop) (f : σ → α → σ) :
    ∀ (l : List α) (s : σ), P s →
      (∀ s a, a ∈ l → P s → P (f s a)) → P (l.foldl f s) := by
  intro l
  induction l with
  | nil =>
    intro s hs _
    exact hs
  | cons a t ih =>
    intro s hs hstep
    rw [List.foldl_cons]
    exact ih (f s a) (hstep s a (List.mem_cons_self a t) hs)
      (fun s2 b hb hP => hstep s2 b (List.mem_cons_of_mem a hb) hP)

/-- Flushing only ever appends a trimmed chunk. -/
theorem flushChunk_trimmed (ch : List Str) (cur : Str)
    (h : ∀ p ∈ ch, trim p = p) : ∀ p ∈ flushChunk ch cur, trim p = p := by
  intro p hp
  unfold flushChunk at hp
  by_cases hcur : (cur == []) = true
  · rw [if_pos hcur] at hp
    exact h p hp
  · rw [if_neg hcur] at hp
    rcases List.mem_append.mp hp with hp1 | hp2
    · exact h p hp1
    · rw [List.mem_singleton.mp hp2]
      exact trim_trim cur

/-- The word step keeps every finished chunk trimmed. -/
theorem processWord_trimmed (maxLength : Nat) (st : List Str × Str) (w : Str)
    (h : ∀ p ∈ st.1, trim p = p) :
    ∀ p ∈ (processWord maxLength st w).1, trim p = p := by
  rcases st with ⟨ch, cur⟩
  unfold processWord
  dsimp only
  by_cases hcond : cur.length + w.length + 1 > maxLength
  · rw [if_pos hcond]
    exact flushChunk_trimmed ch cur h
  · rw [if_neg hcond]
    exact h

/-- The line step keeps every finished chunk trimmed. -/
theorem processLine_trimmed (maxLength : Nat) (st : List Str × Str) (l : Str)
    (h : ∀ p ∈ st.1, trim p = p) :
    ∀ p ∈ (processLine maxLength st l).1, trim p = p := by
  rcases st with ⟨ch, cur⟩
  unfold processLine
  dsimp only
  by_cases hcond : cur.length + l.length + 1 > maxLength
  · rw [if_pos hcond]
    by_cases hlong : l.length > maxLength
    · rw [if_pos hlong]
      have hinv := foldl_invariant (fun st2 => ∀ p ∈ st2.1, trim p = p)
        (processWord maxLength) (splitOn ' ' l) (flushChunk ch cur, [])
        (flushChunk_trimmed ch cur h)
        (fun s2 w _ hP => processWord_trimmed maxLength s2 w hP)
      exact hinv
    · rw [if_neg hlong]
      exact flushChunk_trimmed ch cur h
  · rw [if_neg hcond]
    exact h

/-- The empty string is whitespace-only. -/
theorem wsOnly_nil : ∀ x ∈ ([] : Str), isJsWhitespace x = true := by
  intro x hx
  exact absurd hx (List.not_mem_nil x)

/-- The one-space string is whitespace-only. -/
theorem wsOnly_singleton_space : ∀ x ∈ ([' '] : Str), isJsWhitespace x = true := by
  intro x hx
  rw [List.mem_singleton.mp hx]
  decide

/-- The one-newline string is whitespace-only. -/
theorem wsOnly_singleton_newline :
    ∀ x ∈ (['\n'] : Str), isJsWhitespace x = true := by
  intro x hx
  rw [List.mem_singleton.mp hx]
  decide

/-- An interleaving absorbs trailing whitespace. -/
theorem interleavesWs_absorb (parts : List Str) (s w : Str)
    (h : InterleavesWs parts s) (hw : ∀ x ∈ w, isJsWhitespace x = true) :
    InterleavesWs parts (s ++ w) := by
  induction h with
  | nil w0 hw0 =>
    refine InterleavesWs.nil (w0 ++ w) ?_
    intro x hx
    rcases List.mem_append.mp hx with h1 | h2
    · exact hw0 x h1
    · exact hw x h2
  | cons w0 p0 parts0 rest hw0 h0 ih =>
    have hc := InterleavesWs.cons w0 p0 parts0 (rest ++ w) hw0 ih
    simpa [List.append_assoc] using hc

/-- An interleaving extends by one more part and its trailing
whitespace. -/
theorem interleavesWs_snoc (parts : List Str) (s p w : Str)
    (h : InterleavesWs parts s) (hw : ∀ x ∈ w, isJsWhitespace x = true) :
    InterleavesWs (parts ++ [p]) (s ++ p ++ w) := by
  induction h with
  | nil w0 hw0 =>
    simpa using InterleavesWs.cons w0 p [] w hw0 (InterleavesWs.nil w hw)
  | cons w0 p0 parts0 rest hw0 h0 ih =>
    have hc := InterleavesWs.cons w0 p0 (parts0 ++ [p]) (rest ++ p ++ w) hw0 ih
    simpa [List.append_assoc] using hc

/-- Every string is whitespace, then its trimmed core, then whitespace. -/
theorem trim_decomposition (s : Str) :
    ∃ lw tw, (∀ x ∈ lw, isJsWhitespace x = true)
      ∧ (∀ x ∈ tw, isJsWhitespace x = true)
      ∧ lw ++ trim s ++ tw = s := by
  refine ⟨s.takeWhile isJsWhitespace,
    ((s.dropWhile isJsWhitespace).reverse.takeWhile isJsWhitespace).reverse,
    ?_, ?_, ?_⟩
  · intro x hx
    exact List.mem_takeWhile_imp hx
  · intro x hx
    rw [List.mem_reverse] at hx
    exact List.mem_takeWhile_imp hx
  · have h1 : s.takeWhile isJsWhitespace ++ s.dropWhile isJsWhitespace = s :=
      List.takeWhile_append_dropWhile isJsWhitespace s
    have h2 := rdropWhile_ws_decomposition (s.dropWhile isJsWhitespace)
    show s.takeWhile isJsWhitespace ++
      (s.dropWhile isJsWhitespace).rdropWhile isJsWhitespace ++ _ = s
    rw [List.append_assoc, ← h2]
    exact h1

/-- Flushing the pending chunk keeps the finished chunks interleaved in
the consumed text: the pending chunk and a following whitespace
separator join the interleaving, the trimmed-off edges of the chunk
being themselves whitespace. -/
theorem interleaves_flushChunk (ch : List Str) (cur b sep : Str)
    (hb : InterleavesWs ch b)
    (hsep : ∀ x ∈ sep, isJsWhitespace x = true) :
    InterleavesWs (flushChunk ch cur) (b ++ cur ++ sep) := by
  unfold flushChunk
  by_cases hc : (cur == []) = true
  · rw [if_pos hc]
    have hce : cur = [] := eq_of_beq hc
    subst hce
    simpa using interleavesWs_absorb ch b sep hb hsep
  · rw [if_neg hc]
    obtain ⟨lw, tw, hlw, htw, hdec⟩ := trim_decomposition cur
    have h1 := interleavesWs_absorb ch b lw hb hlw
    have htwsep : ∀ x ∈ tw ++ sep, isJsWhitespace x = true := by
      intro x hx
      rcases List.mem_append.mp hx with hx1 | hx2
      · exact htw x hx1
      · exact hsep x hx2
    have h2 := interleavesWs_snoc ch (b ++ lw) (trim cur) (tw ++ sep) h1 htwsep
    have hshape : b ++ cur ++ sep = (b ++ lw) ++ trim cur ++ (tw ++ sep) := by
      conv_lhs => rw [← hdec]
      simp [List.append_assoc]
    rw [hshape]
    exact h2

/-- `sepAfter` with the one-character separator in front. -/
theorem sepAfter_single (c : Char) : ∀ ls : List Str,
    sepAfter [c] c ls =
      (match ls with | [] => [] | _ :: _ => c :: joinSep c ls) := by
  intro ls
  induction ls with
  | nil => rfl
  | cons w rest ih =>
    show [c] ++ w ++ sepAfter [c] c rest = c :: joinSep c (w :: rest)
    rw [ih]
    cases rest with
    | nil => simp [joinSep]
    | cons r rr =>
      show [c] ++ w ++ (c :: joinSep c (r :: rr)) = c :: joinSep c (w :: r :: rr)
      have hj : joinSep c (w :: r :: rr) = w ++ c :: joinSep c (r :: rr) := rfl
      rw [hj]
      simp

/-- With no leading separator, `sepAfter` is exactly the separator
join. -/
theorem sepAfter_nil (c : Char) (ls : List Str) :
    sepAfter [] c ls = joinSep c ls := by
  cases ls with
  | nil => rfl
  | cons w rest =>
    show [] ++ w ++ sepAfter [c] c rest = joinSep c (w :: rest)
    rw [sepAfter_single c rest]
    cases rest with
    | nil => simp [joinSep]
    | cons r rr =>
      have hj : joinSep c (w :: r :: rr) = w ++ c :: joinSep c (r :: rr) := rfl
      rw [hj]
      simp

/-- Interleaving invariant of the inner word loop: starting from
finished chunks interleaved in `b` with pending chunk `cur`, after the
loop the new finished chunks are interleaved in some `b2` and the text
consumed so far is `b2` followed by the new pending chunk.  `sep0` is
the separator standing before the first word (a single space inside a
line, nothing at the start of one). -/
theorem foldl_processWord_interleaves (maxLength : Nat) :
    ∀ (words : List Str) (ch : List Str) (cur b sep0 : Str),
      InterleavesWs ch b →
      (∀ x ∈ sep0, isJsWhitespace x = true) →
      (cur ≠ [] → sep0 = [' ']) →
      ∃ b2, InterleavesWs ((words.foldl (processWord maxLength) (ch, cur)).1) b2
        ∧ b2 ++ (words.foldl (processWord maxLength) (ch, cur)).2
            = b ++ cur ++ sepAfter sep0 ' ' words := by
  intro words
  induction words with
  | nil =>
    intro ch cur b sep0 hb hsep hcur
    exact ⟨b, hb, by simp [sepAfter]⟩
  | cons w rest ih =>
    intro ch cur b sep0 hb hsep hcur
    rw [List.foldl_cons]
    by_cases hcond : cur.length + w.length + 1 > maxLength
    · have hstep : processWord maxLength (ch, cur) w = (flushChunk ch cur, w) := by
        unfold processWord
        dsimp only
        rw [if_pos hcond]
      rw [hstep]
      obtain ⟨b2, hI, hEq⟩ := ih (flushChunk ch cur) w (b ++ cur ++ sep0) [' ']
        (interleaves_flushChunk ch cur b sep0 hb hsep)
        wsOnly_singleton_space (fun _ => rfl)
      refine ⟨b2, hI, ?_⟩
      rw [hEq]
      show b ++ cur ++ sep0 ++ w ++ sepAfter [' '] ' ' rest
        = b ++ cur ++ (sep0 ++ w ++ sepAfter [' '] ' ' rest)
      simp [List.append_assoc]
    · by_cases hce : (cur == []) = true
      · have hc0 : cur = [] := eq_of_beq hce
        subst hc0
        have hstep : processWord maxLength (ch, []) w = (ch, w) := by
          unfold processWord
          dsimp only
          rw [if_neg hcond]
          simp
        rw [hstep]
        obtain ⟨b2, hI, hEq⟩ := ih ch w (b ++ sep0) [' ']
          (interleavesWs_absorb ch b sep0 hb hsep)
          wsOnly_singleton_space (fun _ => rfl)
        refine ⟨b2, hI, ?_⟩
        rw [hEq]
        show b ++ sep0 ++ w ++ sepAfter [' '] ' ' rest
          = b ++ [] ++ (sep0 ++ w ++ sepAfter [' '] ' ' rest)
        simp [List.append_assoc]
      · have hne : cur ≠ [] := by
          intro hc0
          rw [hc0] at hce
          exact hce rfl
        have hsp : sep0 = [' '] := hcur hne
        subst hsp
        have hstep : processWord maxLength (ch, cur) w = (ch, cur ++ ' ' :: w) := by
          unfold processWord
          dsimp only
          rw [if_neg hcond, if_neg hce]
        rw [hstep]
        obtain ⟨b2, hI, hEq⟩ := ih ch (cur ++ ' ' :: w) b [' ']
          hb wsOnly_singleton_space (fun _ => rfl)
        refine ⟨b2, hI, ?_⟩
        rw [hEq]
        show b ++ (cur ++ ' ' :: w) ++ sepAfter [' '] ' ' rest
          = b ++ cur ++ ([' '] ++ w ++ sepAfter [' '] ' ' rest)
        simp [List.append_assoc]

/-- Interleaving invariant of the outer line loop, in the same shape as
the word-loop invariant, with newline separators. -/
theorem foldl_processLine_interleaves (maxLength : Nat) :
    ∀ (lines : List Str) (ch : List Str) (cur b sep0 : Str),
      InterleavesWs ch b →
      (∀ x ∈ sep0, isJsWhitespace x = true) →
      (cur ≠ [] → sep0 = ['\n']) →
      ∃ b2, InterleavesWs ((lines.foldl (processLine maxLength) (ch, cur)).1) b2
        ∧ b2 ++ (lines.foldl (processLine maxLength) (ch, cur)).2
            = b ++ cur ++ sepAfter sep0 '\n' lines := by
  intro lines
  induction lines with
  | nil =>
    intro ch cur b sep0 hb hsep hcur
    exact ⟨b, hb, by simp [sepAfter]⟩
  | cons l rest ih =>
    intro ch cur b sep0 hb hsep hcur
    rw [List.foldl_cons]
    by_cases hcond : cur.length + l.length + 1 > maxLength
    · by_cases hlong : l.length > maxLength
      · have hstep : processLine maxLength (ch, cur) l
            = (splitOn ' ' l).foldl (processWord maxLength) (flushChunk ch cur, []) := by
          unfold processLine
          dsimp only
          rw [if_pos hcond, if_pos hlong]
        rw [hstep]
        obtain ⟨b1, hI1, hEq1⟩ := foldl_processWord_interleaves maxLength
          (splitOn ' ' l) (flushChunk ch cur) [] (b ++ cur ++ sep0) []
          (interleaves_flushChunk ch cur b sep0 hb hsep)
          wsOnly_nil (fun hne => absurd rfl hne)
        rcases hwf : (splitOn ' ' l).foldl (processWord maxLength)
            (flushChunk ch cur, []) with ⟨ch1, cur1⟩
        rw [hwf] at hI1 hEq1
        dsimp only at hI1 hEq1
        rw [sepAfter_nil ' ' (splitOn ' ' l), joinSep_splitOn ' ',
          List.append_nil] at hEq1
        obtain ⟨b2, hI2, hEq2⟩ := ih ch1 cur1 b1 ['\n']
          hI1 wsOnly_singleton_newline (fun _ => rfl)
        refine ⟨b2, hI2, ?_⟩
        rw [hEq2, hEq1]
        show b ++ cur ++ sep0 ++ l ++ sepAfter ['\n'] '\n' rest
          = b ++ cur ++ (sep0 ++ l ++ sepAfter ['\n'] '\n' rest)
        simp [List.append_assoc]
      · have hstep : processLine maxLength (ch, cur) l = (flushChunk ch cur, l) := by
          unfold processLine
          dsimp only
          rw [if_pos hcond, if_neg hlong]
        rw [hstep]
        obtain ⟨b2, hI, hEq⟩ := ih (flushChunk ch cur) l (b ++ cur ++ sep0) ['\n']
          (interleaves_flushChunk ch cur b sep0 hb hsep)
          wsOnly_singleton_newline (fun _ => rfl)
        refine ⟨b2, hI, ?_⟩
        rw [hEq]
        show b ++ cur ++ sep0 ++ l ++ sepAfter ['\n'] '\n' rest
          = b ++ cur ++ (sep0 ++ l ++ sepAfter ['\n'] '\n' rest)
        simp [List.append_assoc]
    · by_cases hce : (cur == []) = true
      · have hc0 : cur = [] := eq_of_beq hce
        subst hc0
        have hstep : processLine maxLength (ch, []) l = (ch, l) := by
          unfold processLine
          dsimp only
          rw [if_neg hcond]
          simp
        rw [hstep]
        obtain ⟨b2, hI, hEq⟩ := ih ch l (b ++ sep0) ['\n']
          (interleavesWs_absorb ch b sep0 hb hsep)
          wsOnly_singleton_newline (fun _ => rfl)
        refine ⟨b2, hI, ?_⟩
        rw [hEq]
        show b ++ sep0 ++ l ++ sepAfter ['\n'] '\n' rest
          = b ++ [] ++ (sep0 ++ l ++ sepAfter ['\n'] '\n' rest)
        simp [List.append_assoc]
      · have hne : cur ≠ [] := by
          intro hc0
          rw [hc0] at hce
          exact hce rfl
        have hsp : sep0 = ['\n'] := hcur hne
        subst hsp
        have hstep : processLine maxLength (ch, cur) l = (ch, cur ++ '\n' :: l) := by
          unfold processLine
          dsimp only
          rw [if_neg hcond, if_neg hce]
        rw [hstep]
        obtain ⟨b2, hI, hEq⟩ := ih ch (cur ++ '\n' :: l) b ['\n']
          hb wsOnly_singleton_newline (fun _ => rfl)
        refine ⟨b2, hI, ?_⟩
        rw [hEq]
        show b ++ (cur ++ '\n' :: l) ++ sepAfter ['\n'] '\n' rest
          = b ++ cur ++ (['\n'] ++ l ++ sepAfter ['\n'] '\n' rest)
        simp [List.append_assoc]

/-- CLAIM C6.  For every text longer than the limit, rejoining the
parts that `splitLongMessage` returns with their original separators
reproduces the pre-split text, the difference being confined to the
whitespace trimmed at part boundaries: `InterleavesWs` states that the
text is exactly the parts, verbatim and in order, interleaved with
whitespace-only segments (the boundary whitespace the splitter dropped
or trimmed), so within each part the original separators are preserved
verbatim.  In addition the concatenated parts carry exactly the words
of the original text in order, and every part is trimmed of leading and
trailing whitespace. -/
theorem c6_split_round_trip (text : Str) (maxLength : Nat)
    (h : maxLength < text.length) :
    InterleavesWs (splitLongMessage text maxLength) text
    ∧ (splitLongMessage text maxLength).flatMap wordsOf = wordsOf text
    ∧ (splitLongMessage text maxLength).all (fun p => trim p == p) = true := by
  have hnotle : ¬ text.length ≤ maxLength := by omega
  refine ⟨?_, ?_, ?_⟩
  · unfold splitLongMessage
    rw [if_neg hnotle]
    dsimp only
    obtain ⟨b2, hI, hEq⟩ := foldl_processLine_interleaves maxLength
      (splitOn '\n' text) [] [] [] []
      (InterleavesWs.nil [] wsOnly_nil) wsOnly_nil (fun hne => absurd rfl hne)
    rcases hst : (splitOn '\n' text).foldl (processLine maxLength) ([], []) with ⟨ch1, cur1⟩
    rw [hst] at hI hEq
    dsimp only at hI hEq
    rw [sepAfter_nil '\n' (splitOn '\n' text), joinSep_splitOn '\n'] at hEq
    simp only [List.nil_append] at hEq
    have hflush := interleaves_flushChunk ch1 cur1 b2 [] hI wsOnly_nil
    rw [List.append_nil, hEq] at hflush
    exact hflush
  · unfold splitLongMessage
    rw [if_neg hnotle]
    dsimp only
    rcases hst : (splitOn '\n' text).foldl (processLine maxLength) ([], []) with ⟨ch, cur⟩
    have hfold := foldl_processLine_words maxLength (splitOn '\n' text) [] []
    rw [hst] at hfold
    simp only at hfold
    rw [flushChunk_words, hfold]
    simp only [List.flatMap_nil, wordsOf_nil, List.nil_append]
    exact flatMap_wordsOf_splitOn '\n' isJsWhitespace_newline text
  · rw [List.all_eq_true]
    intro p hp
    have hptrim : trim p = p := by
      revert p hp
      unfold splitLongMessage
      rw [if_neg hnotle]
      dsimp only
      rcases hst : (splitOn '\n' text).foldl (processLine maxLength) ([], []) with ⟨ch, cur⟩
      have hinv := foldl_invariant (fun st2 => ∀ p ∈ st2.1, trim p = p)
        (processLine maxLength) (splitOn '\n' text) ([], [])
        (by intro p hp; cases hp)
        (fun s2 l _ hP => processLine_trimmed maxLength s2 l hP)
      rw [hst] at hinv
      exact flushChunk_trimmed ch cur hinv
    rw [hptrim]
    simp

/-- Witness for C6 at a concrete two-line text and limit 5. -/
theorem c6_witness :
    InterleavesWs (splitLongMessage (chars "aaa bbb\nccc ddd") 5)
      (chars "aaa bbb\nccc ddd")
    ∧ (splitLongMessage (chars "aaa bbb\nccc ddd") 5).flatMap wordsOf
      = wordsOf (chars "aaa bbb\nccc ddd")
    ∧ (splitLongMessage (chars "aaa bbb\nccc ddd") 5).all
        (fun p => trim p == p) = true :=
  c6_split_round_trip (chars "aaa bbb\nccc ddd") 5 (by decide)

/-- Flushing keeps every finished chunk within the limit. -/
theorem flushChunk_length (maxLength : Nat) (ch : List Str) (cur : Str)
    (h : ∀ p ∈ ch, p.length ≤ maxLength) (hcur : cur.length ≤ maxLength) :
    ∀ p ∈ flushChunk ch cur, p.length ≤ maxLength := by
  intro p hp
  unfold flushChunk at hp
  by_cases hc : (cur == []) = true
  · rw [if_pos hc] at hp
    exact h p hp
  · rw [if_neg hc] at hp
    rcases List.mem_append.mp hp with hp1 | hp2
    · exact h p hp1
    · rw [List.mem_singleton.mp hp2]
      exact le_trans (trim_length_le cur) hcur

/-- The word step keeps chunks within the limit when the word itself
fits. -/
theorem processWord_length (maxLength : Nat) (st : List Str × Str) (w : Str)
    (hw : w.length ≤ maxLength)
    (h : (∀ p ∈ st.1, p.length ≤ maxLength) ∧ st.2.length ≤ maxLength) :
    (∀ p ∈ (processWord maxLength st w).1, p.length ≤ maxLength)
    ∧ (processWord maxLength st w).2.length ≤ maxLength := by
  rcases st with ⟨ch, cur⟩
  unfold processWord
  dsimp only
  dsimp only at h
  by_cases hcond : cur.length + w.length + 1 > maxLength
  · rw [if_pos hcond]
    exact ⟨flushChunk_length maxLength ch cur h.1 h.2, hw⟩
  · rw [if_neg hcond]
    refine ⟨h.1, ?_⟩
    by_cases hc : (cur == []) = true
    · rw [if_pos hc]
      exact hw
    · rw [if_neg hc]
      rw [List.length_append, List.length_cons]
      omega

/-- The line step keeps chunks within the limit when every word of the
line fits. -/
theorem processLine_length (maxLength : Nat) (st : List Str × Str) (l : Str)
    (hl : ∀ w ∈ splitOn ' ' l, w.length ≤ maxLength)
    (h : (∀ p ∈ st.1, p.length ≤ maxLength) ∧ st.2.length ≤ maxLength) :
    (∀ p ∈ (processLine maxLength st l).1, p.length ≤ maxLength)
    ∧ (processLine maxLength st l).2.length ≤ maxLength := by
  rcases st with ⟨ch, cur⟩
  unfold processLine
  dsimp only
  dsimp only at h
  by_cases hcond : cur.length + l.length + 1 > maxLength
  · rw [if_pos hcond]
    by_cases hlong : l.length > maxLength
    · rw [if_pos hlong]
      exact foldl_invariant
        (fun st2 => (∀ p ∈ st2.1, p.length ≤ maxLength) ∧ st2.2.length ≤ maxLength)
        (processWord maxLength) (splitOn ' ' l) (flushChunk ch cur, [])
        ⟨flushChunk_length maxLength ch cur h.1 h.2, by simp⟩
        (fun s2 w hw hP => processWord_length maxLength s2 w (hl w hw) hP)
    · rw [if_neg hlong]
      refine ⟨flushChunk_length maxLength ch cur h.1 h.2, ?_⟩
      dsimp only
      omega
  · rw [if_neg hcond]
    refine ⟨h.1, ?_⟩
    dsimp only
    by_cases hc : (cur == []) = true
    · rw [if_pos hc]
      omega
    · rw [if_neg hc]
      rw [List.length_append, List.length_cons]
      omega

/-- CLAIM C5 counterexample.  The length bound fails as stated: a
5-character single word with limit 3 is returned as one untouched part
of length 5 (the word loop never splits inside a word, so an over-long
word yields an over-long part). -/
theorem c5_counterexample :
    splitLongMessage (chars "aaaaa") 3 = [chars "aaaaa"]
    ∧ ((splitLongMessage (chars "aaaaa") 3).all
        (fun p => decide (p.length ≤ 3))) = false := by
  constructor
  · decide
  · decide

/-- CLAIM C5 (amended).  Splitting happens first at line boundaries,
then at word boundaries for a single line exceeding the limit, and
never inside a word; consequently every part returned by
`splitLongMessage` has length at most the limit provided every
space-delimited word of every line of the text has length at most the
limit (a single longer word is emitted intact in a part exceeding the
limit, as the counterexample shows). -/
theorem c5_amended_length_bound (text : Str) (maxLength : Nat)
    (hwords : ((splitOn '\n' text).all
      (fun line => (splitOn ' ' line).all
        (fun w => decide (w.length ≤ maxLength)))) = true) :
    ((splitLongMessage text maxLength).all
      (fun p => decide (p.length ≤ maxLength))) = true := by
  have hw : ∀ line ∈ splitOn '\n' text, ∀ w ∈ splitOn ' ' line,
      w.length ≤ maxLength := by
    intro line hline w hwmem
    have h1 := (List.all_eq_true.mp hwords) line hline
    have h2 := (List.all_eq_true.mp h1) w hwmem
    exact of_decide_eq_true h2
  rw [List.all_eq_true]
  intro p hp
  rw [decide_eq_true_eq]
  unfold splitLongMessage at hp
  by_cases hle : text.length ≤ maxLength
  · rw [if_pos hle] at hp
    rw [List.mem_singleton.mp hp]
    exact hle
  · rw [if_neg hle] at hp
    dsimp only at hp
    rcases hst : (splitOn '\n' text).foldl (processLine maxLength) ([], []) with ⟨ch, cur⟩
    have hinv := foldl_invariant
      (fun st2 => (∀ q ∈ st2.1, q.length ≤ maxLength) ∧ st2.2.length ≤ maxLength)
      (processLine maxLength) (splitOn '\n' text) ([], [])
      ⟨fun q hq => absurd hq (List.not_mem_nil q), by simp⟩
      (fun s2 l hl hP => processLine_length maxLength s2 l (hw l hl) hP)
    rw [hst] at hinv hp
    exact flushChunk_length maxLength ch cur hinv.1 hinv.2 p hp

/-- Witness for the amended C5: a two-word text over a limit of 6. -/
theorem c5_witness :
    ((splitLongMessage (chars "hello world") 6).all
      (fun p => decide (p.length ≤ 6))) = true :=
  c5_amended_length_bound (chars "hello world") 6 (by decide)
